import Mathlib

/-!
Shallow embedding of `src/compute_rho_null.cpp` (scran): Monte Carlo estimation of
the null distribution of Spearman's rho, without (`get_null_rho`) and with
(`get_null_rho_design`) a design matrix, plus the RNG diagnostic `test_rnorm`.

Doubles are modelled as exact rationals.  The C++ standard-library randomness layer
(`std::mt19937` + `std::shuffle` / `std::normal_distribution`) is deterministic
given the seed; it is modelled by abstract functions of the seed (`shuffle`,
`normals`).  The LAPACK `dormqr` application of the orthogonal factor
(`run_dormqr`, external to this translation unit) is modelled by an abstract
vector transform `applyQ`.
-/

namespace ScranRhoNull

/-- `rho_mult` from the source: `6/(Ncells*(Ncells*Ncells-1))`. -/
def rho_mult (Ncells : ℚ) : ℚ := 6 / (Ncells * (Ncells * Ncells - 1))

/-- One iteration of the loop body of `get_null_rho`: build the identity sequence
(`std::iota`), shuffle it with the generator seeded from this iteration's seed,
accumulate `tmp += (rankings[cell]-cell)^2`, then produce `1 - mult*tmp`. -/
def null_rho_iter (shuffle : ℤ → List ℕ → List ℕ) (N : ℕ) (seed : ℤ) : ℚ :=
  let rankings := shuffle seed (List.range N)
  let tmp : ℚ := ∑ cell ∈ Finset.range N, ((rankings.getD cell 0 : ℚ) - (cell : ℚ)) ^ 2
  1 - rho_mult N * tmp

/-- `get_null_rho(cells, iters, seeds)`: argument checks in source order, then one
rho value per seed. -/
def get_null_rho (shuffle : ℤ → List ℕ → List ℕ) (cells iters : ℤ) (seeds : List ℤ) :
    Except String (List ℚ) :=
  if cells ≤ 1 then Except.error "number of cells should be greater than 2"
  else if iters < 0 then Except.error "number of iterations should be non-negative"
  else if (seeds.length : ℤ) ≠ iters then
    Except.error "number of iterations and seeds should be the same"
  else Except.ok (seeds.map (fun s => null_rho_iter shuffle cells.toNat s))

/-- Lexicographic `operator<=` induced by `std::pair<double,int>`'s `operator<`. -/
def lexLe (a b : ℚ × ℕ) : Prop := a.1 < b.1 ∨ (a.1 = b.1 ∧ a.2 ≤ b.2)

/-- Lexicographic `operator<` of `std::pair<double,int>`. -/
def lexLt (a b : ℚ × ℕ) : Prop := a.1 < b.1 ∨ (a.1 = b.1 ∧ a.2 < b.2)

instance : DecidableRel lexLe := fun a b => by unfold lexLe; infer_instance

instance : DecidableRel lexLt := fun a b => by unfold lexLt; infer_instance

instance : IsTotal (ℚ × ℕ) lexLe := by
  constructor
  intro a b
  unfold lexLe
  rcases lt_trichotomy a.1 b.1 with h | h | h
  · exact Or.inl (Or.inl h)
  · rcases Nat.le_total a.2 b.2 with h2 | h2
    · exact Or.inl (Or.inr ⟨h, h2⟩)
    · exact Or.inr (Or.inr ⟨h.symm, h2⟩)
  · exact Or.inr (Or.inl h)

instance : IsTrans (ℚ × ℕ) lexLe := by
  constructor
  intro a b c hab hbc
  unfold lexLe at *
  rcases hab with h1 | ⟨e1, l1⟩
  · rcases hbc with h2 | ⟨e2, _⟩
    · exact Or.inl (h1.trans h2)
    · exact Or.inl (e2 ▸ h1)
  · rcases hbc with h2 | ⟨e2, l2⟩
    · exact Or.inl (e1 ▸ h2)
    · exact Or.inr ⟨e1.trans e2, l1.trans l2⟩

/-- The write-back loop `for (row) rank[current[row].second] = row`, starting from the
zero-initialised `std::deque<int> rank(Nobs)`. -/
def fill_ranks : List ℕ → ℕ → List ℕ → List ℕ
  | [], _, acc => acc
  | j :: rest, row, acc => fill_ranks rest (row + 1) (acc.set j row)

/-- Ranking step of `get_null_rho_design`: pair each value with its row index, sort the
pairs (`std::sort` on `std::pair<double,int>`, i.e. lexicographically), then write
`rank[sorted[row].second] = row`. -/
def rankVec (n : ℕ) (v : List ℚ) : List ℕ :=
  let pairs := (List.range n).map (fun row => (v.getD row 0, row))
  let sortedPairs := List.insertionSort lexLe pairs
  fill_ranks (sortedPairs.map (fun p => p.2)) 0 (List.replicate n 0)

/-- One mode's right-hand side: first `Ncoef` entries zeroed, the remaining
`Nobs - Ncoef` filled with consecutive draws from the iteration's generator,
starting at draw index `start`. -/
def drawVec (normals : ℕ → ℚ) (Nobs Ncoef start : ℕ) : List ℚ :=
  List.replicate Ncoef 0 ++ (List.range (Nobs - Ncoef)).map (fun k => normals (start + k))

/-- One iteration of `get_null_rho_design`: mode 0 (draws `0..R-1`) fills `rank2`,
mode 1 (draws `R..2R-1`) fills `rank1`, where `R = Nobs - Ncoef`; then
`rho = 1 - mult * Σ (rank1[row]-rank2[row])^2`. -/
def design_iter (applyQ : List ℚ → List ℚ) (normals : ℕ → ℚ) (Nobs Ncoef : ℕ) : ℚ :=
  let rank2 := rankVec Nobs (applyQ (drawVec normals Nobs Ncoef 0))
  let rank1 := rankVec Nobs (applyQ (drawVec normals Nobs Ncoef (Nobs - Ncoef)))
  let rho : ℚ :=
    ∑ row ∈ Finset.range Nobs, ((rank1.getD row 0 : ℚ) - (rank2.getD row 0 : ℚ)) ^ 2
  1 - rho_mult Nobs * rho

/-- `get_null_rho_design(qr, qraux, iters, seeds)`: argument checks in source order,
then one rho value per seed; `Nobs`/`Ncoef` come from the factorization. -/
def get_null_rho_design (applyQ : List ℚ → List ℚ) (normals : ℤ → ℕ → ℚ)
    (Nobs Ncoef : ℕ) (iters : ℤ) (seeds : List ℤ) : Except String (List ℚ) :=
  if iters ≤ 0 then Except.error "number of iterations should be positive"
  else if (seeds.length : ℤ) ≠ iters then
    Except.error "number of iterations and seeds should be the same"
  else Except.ok (seeds.map (fun s => design_iter applyQ (normals s) Nobs Ncoef))

/-- `test_rnorm(N, seed)`: `N` consecutive draws from one generator seeded with `seed`. -/
def test_rnorm (normals : ℤ → ℕ → ℚ) (N : ℕ) (seed : ℤ) : List ℚ :=
  (List.range N).map (fun k => normals seed k)

/-- Specification-side "sorted position of item `i`, ties broken by original index":
the number of items `j` whose pair `(v j, j)` is lexicographically smaller than
`(v i, i)`. -/
def sposition (n : ℕ) (v : List ℚ) (i : ℕ) : ℕ :=
  (List.range n).countP (fun j => decide (lexLt (v.getD j 0, j) (v.getD i 0, i)))

theorem fill_ranks_length (p : List ℕ) (row : ℕ) (acc : List ℕ) :
    (fill_ranks p row acc).length = acc.length := by
  induction p generalizing row acc with
  | nil => rfl
  | cons a rest ih => simp [fill_ranks, ih]

theorem fill_ranks_getD_not_mem (p : List ℕ) (row : ℕ) (acc : List ℕ) (j : ℕ)
    (hj : j ∉ p) : (fill_ranks p row acc).getD j 0 = acc.getD j 0 := by
  induction p generalizing row acc with
  | nil => rfl
  | cons a rest ih =>
    rw [List.mem_cons, not_or] at hj
    simp only [fill_ranks]
    rw [ih _ _ hj.2]
    rw [List.getD_eq_getElem?_getD, List.getD_eq_getElem?_getD,
      List.getElem?_set_ne (fun h => hj.1 h.symm)]

theorem fill_ranks_getD_hit (p : List ℕ) (row : ℕ) (acc : List ℕ)
    (hnd : p.Nodup) (k : ℕ) (hk : k < p.length) (hlt : p.get ⟨k, hk⟩ < acc.length) :
    (fill_ranks p row acc).getD (p.get ⟨k, hk⟩) 0 = row + k := by
  induction p generalizing row acc k with
  | nil => exact absurd hk (by simp)
  | cons a rest ih =>
    rw [List.nodup_cons] at hnd
    cases k with
    | zero =>
      simp only [List.get] at hlt ⊢
      simp only [fill_ranks]
      rw [fill_ranks_getD_not_mem _ _ _ _ hnd.1]
      rw [List.getD_eq_getElem _ _ (by simpa using hlt)]
      simp
    | succ k =>
      simp only [List.get] at hlt ⊢
      simp only [fill_ranks]
      have hk' : k < rest.length := by simpa using hk
      have := ih (row + 1) (acc.set a row) hnd.2 k hk' (by simpa using hlt)
      rw [this]
      omega

theorem perm_range_of_nodup (n : ℕ) (l : List ℕ) (hlen : l.length = n)
    (hnd : l.Nodup) (hmem : ∀ x ∈ l, x < n) : l.Perm (List.range n) := by
  have hsub : l ⊆ List.range n := fun x hx => List.mem_range.mpr (hmem x hx)
  exact (hnd.subperm hsub).perm_of_length_le (by simp [hlen])

theorem fill_ranks_getD_indexOf (n : ℕ) (p : List ℕ) (hp : p.Perm (List.range n))
    (j : ℕ) (hj : j < n) :
    (fill_ranks p 0 (List.replicate n 0)).getD j 0 = p.indexOf j := by
  have hjp : j ∈ p := hp.mem_iff.mpr (List.mem_range.mpr hj)
  have hk : p.indexOf j < p.length := List.indexOf_lt_length.mpr hjp
  have hget : p.get ⟨p.indexOf j, hk⟩ = j := List.getElem_indexOf hk
  have hnd : p.Nodup := hp.nodup_iff.mpr (List.nodup_range n)
  have hlt : p.get ⟨p.indexOf j, hk⟩ < (List.replicate n (0 : ℕ)).length := by
    rw [hget]; simpa using hj
  have hmain := fill_ranks_getD_hit p 0 (List.replicate n 0) hnd (p.indexOf j) hk hlt
  rwa [hget, Nat.zero_add] at hmain

theorem indexOf_map_range_perm (n : ℕ) (p : List ℕ) (hp : p.Perm (List.range n)) :
    ((List.range n).map (fun j => p.indexOf j)).Perm (List.range n) := by
  have hlen : p.length = n := by simpa using hp.length_eq
  apply perm_range_of_nodup
  · simp
  · apply List.Nodup.map_on _ (List.nodup_range n)
    intro a ha b hb hab
    have hap : a ∈ p := hp.mem_iff.mpr ha
    have hbp : b ∈ p := hp.mem_iff.mpr hb
    exact (List.indexOf_inj hap hbp).mp (by simpa using hab)
  · intro x hx
    rw [List.mem_map] at hx
    obtain ⟨j, hj, rfl⟩ := hx
    rw [← hlen]
    exact List.indexOf_lt_length.mpr (hp.mem_iff.mpr hj)

theorem fill_ranks_perm (n : ℕ) (p : List ℕ) (hp : p.Perm (List.range n)) :
    (fill_ranks p 0 (List.replicate n 0)).Perm (List.range n) := by
  have hlen : (fill_ranks p 0 (List.replicate n 0)).length = n := by
    rw [fill_ranks_length]; simp
  have heq : fill_ranks p 0 (List.replicate n 0) =
      (List.range n).map (fun j => p.indexOf j) := by
    apply List.ext_getElem (by simp [hlen])
    intro i h1 h2
    have hi : i < n := by omega
    rw [← List.getD_eq_getElem _ 0 h1]
    rw [fill_ranks_getD_indexOf n p hp i hi]
    simp
  rw [heq]
  exact indexOf_map_range_perm n p hp

theorem rankVec_seconds_perm (n : ℕ) (v : List ℚ) :
    ((List.insertionSort lexLe
      ((List.range n).map (fun row => (v.getD row 0, row)))).map
        (fun p => p.2)).Perm (List.range n) := by
  have h1 := (List.perm_insertionSort lexLe
    ((List.range n).map (fun row => (v.getD row 0, row)))).map (fun p => p.2)
  refine h1.trans ?_
  rw [List.map_map]
  show (List.map (fun x : ℕ => x) (List.range n)).Perm (List.range n)
  rw [List.map_id']

theorem rankVec_perm (n : ℕ) (v : List ℚ) : (rankVec n v).Perm (List.range n) := by
  unfold rankVec
  exact fill_ranks_perm n _ (rankVec_seconds_perm n v)

theorem lexLt_irrefl (a : ℚ × ℕ) : ¬lexLt a a := by
  unfold lexLt
  rintro (h | ⟨-, h⟩)
  · exact lt_irrefl _ h
  · exact lt_irrefl _ h

theorem not_lexLt_of_lexLe (a b : ℚ × ℕ) (hle : lexLe a b) : ¬lexLt b a := by
  unfold lexLe at hle
  unfold lexLt
  rintro (h | ⟨he, h⟩)
  · rcases hle with h1 | ⟨h1, -⟩
    · exact lt_asymm h1 h
    · rw [h1] at h
      exact lt_irrefl _ h
  · rcases hle with h1 | ⟨-, h1⟩
    · rw [he] at h1
      exact lt_irrefl _ h1
    · omega

theorem lexLt_of_lexLe_ne (a b : ℚ × ℕ) (hle : lexLe a b) (hne : a.2 ≠ b.2) :
    lexLt a b := by
  unfold lexLe at hle
  unfold lexLt
  rcases hle with h | ⟨he, h⟩
  · exact Or.inl h
  · exact Or.inr ⟨he, lt_of_le_of_ne h hne⟩

theorem sorted_countP_lt (l : List (ℚ × ℕ)) (hs : List.Sorted lexLe l)
    (hnd : (l.map (fun p => p.2)).Nodup) (k : ℕ) (hk : k < l.length) :
    l.countP (fun y => decide (lexLt y (l.get ⟨k, hk⟩))) = k := by
  induction l generalizing k with
  | nil => exact absurd hk (by simp)
  | cons a t ih =>
    rw [List.sorted_cons] at hs
    rw [List.map_cons, List.nodup_cons] at hnd
    cases k with
    | zero =>
      simp only [List.get]
      rw [List.countP_cons, if_neg (by simpa using lexLt_irrefl a)]
      rw [Nat.add_eq_zero]
      refine ⟨List.countP_eq_zero.mpr ?_, rfl⟩
      intro y hy
      simpa using not_lexLt_of_lexLe a y (hs.1 y hy)
    | succ k =>
      simp only [List.get] at hk ⊢
      have hk' : k < t.length := by simpa using hk
      have hx : t.get ⟨k, hk'⟩ ∈ t := List.get_mem t k hk'
      have hne : a.2 ≠ (t.get ⟨k, hk'⟩).2 := by
        intro h
        exact hnd.1 (h ▸ List.mem_map_of_mem (fun p => p.2) hx)
      rw [List.countP_cons,
        if_pos (by simpa using lexLt_of_lexLe_ne a _ (hs.1 _ hx) hne)]
      rw [ih hs.2 hnd.2 k hk']

theorem rankVec_getD_eq_sposition (n : ℕ) (v : List ℚ) (i : ℕ) (hi : i < n) :
    (rankVec n v).getD i 0 = sposition n v i := by
  have hp : ((List.insertionSort lexLe
      ((List.range n).map (fun row => (v.getD row 0, row)))).map
        (fun p => p.2)).Perm (List.range n) := rankVec_seconds_perm n v
  set pairs := (List.range n).map (fun row => (v.getD row 0, row)) with hpairs
  set sortedPairs := List.insertionSort lexLe pairs with hsorted
  have hrank : (rankVec n v).getD i 0 = (sortedPairs.map (fun p => p.2)).indexOf i := by
    unfold rankVec
    exact fill_ranks_getD_indexOf n _ hp i hi
  have hip : i ∈ sortedPairs.map (fun p => p.2) := hp.mem_iff.mpr (List.mem_range.mpr hi)
  have hk : (sortedPairs.map (fun p => p.2)).indexOf i <
      (sortedPairs.map (fun p => p.2)).length := List.indexOf_lt_length.mpr hip
  have hk' : (sortedPairs.map (fun p => p.2)).indexOf i < sortedPairs.length := by
    simpa using hk
  have hget2 : (sortedPairs.get ⟨(sortedPairs.map (fun p => p.2)).indexOf i, hk'⟩).2 = i := by
    rw [List.get_eq_getElem]
    have h0 := List.getElem_indexOf hk
    rw [List.getElem_map] at h0
    exact h0
  have hgetfull : sortedPairs.get ⟨(sortedPairs.map (fun p => p.2)).indexOf i, hk'⟩ =
      (v.getD i 0, i) := by
    have hmem : sortedPairs.get ⟨(sortedPairs.map (fun p => p.2)).indexOf i, hk'⟩ ∈ pairs :=
      (List.perm_insertionSort lexLe pairs).mem_iff.mp (List.get_mem _ _ _)
    rw [hpairs] at hmem
    rw [List.mem_map] at hmem
    obtain ⟨j, -, hj⟩ := hmem
    have h3 : j = (sortedPairs.get
        ⟨(sortedPairs.map (fun p => p.2)).indexOf i, hk'⟩).2 :=
      congrArg (fun p : ℚ × ℕ => p.2) hj
    have h2 : j = i := h3.trans hget2
    rw [← hj, h2]
  have hcount := sorted_countP_lt sortedPairs
    (List.sorted_insertionSort lexLe pairs)
    (hp.nodup_iff.mpr (List.nodup_range n)) _ hk'
  rw [hgetfull] at hcount
  rw [hrank, ← hcount]
  rw [(List.perm_insertionSort lexLe pairs).countP_eq]
  unfold sposition
  rw [hpairs, List.countP_map]
  rfl

/-- C9: in the design-adjusted sampler, each of the two rank vectors produced per
iteration is a permutation of `{0, …, Nobs-1}` — every rank is assigned to exactly
one position — and this holds for every input vector, in particular in the presence
of tied values. -/
theorem C9_ranks_are_permutations :
    ∀ (applyQ : List ℚ → List ℚ) (normals : ℕ → ℚ) (Nobs Ncoef : ℕ),
      (rankVec Nobs (applyQ (drawVec normals Nobs Ncoef 0))).Perm (List.range Nobs) ∧
      (rankVec Nobs (applyQ (drawVec normals Nobs Ncoef (Nobs - Ncoef)))).Perm
        (List.range Nobs) ∧
      ∀ v : List ℚ, (rankVec Nobs v).Perm (List.range Nobs) :=
  fun applyQ normals Nobs Ncoef =>
    ⟨rankVec_perm _ _, rankVec_perm _ _, fun v => rankVec_perm _ v⟩

theorem sum_range_id_q (n : ℕ) :
    ∑ i ∈ Finset.range n, (i : ℚ) = (n : ℚ) * ((n : ℚ) - 1) / 2 := by
  induction n with
  | zero => simp
  | succ m ih =>
    rw [Finset.sum_range_succ, ih]
    push_cast
    ring

theorem sum_range_sq_q (n : ℕ) :
    ∑ i ∈ Finset.range n, (i : ℚ) ^ 2 =
      (n : ℚ) * ((n : ℚ) - 1) * (2 * (n : ℚ) - 1) / 6 := by
  induction n with
  | zero => simp
  | succ m ih =>
    rw [Finset.sum_range_succ, ih]
    push_cast
    ring

theorem sum_getD_map (a : List ℕ) (f : ℕ → ℚ) :
    ∑ i ∈ Finset.range a.length, f (a.getD i 0) = (a.map f).sum := by
  induction a with
  | nil => simp
  | cons x xs ih =>
    rw [List.length_cons, Finset.sum_range_succ']
    simp only [List.getD_cons_succ, List.getD_cons_zero]
    rw [ih, List.map_cons, List.sum_cons]
    exact add_comm _ _

theorem perm_range_sum (n : ℕ) (a : List ℕ) (ha : a.Perm (List.range n)) (f : ℕ → ℚ) :
    ∑ i ∈ Finset.range n, f (a.getD i 0) = ∑ i ∈ Finset.range n, f i := by
  have hlen : a.length = n := by simpa using ha.length_eq
  calc ∑ i ∈ Finset.range n, f (a.getD i 0)
      = (a.map f).sum := by rw [← hlen]; exact sum_getD_map a f
    _ = ((List.range n).map f).sum := (ha.map f).sum_eq
    _ = ∑ i ∈ Finset.range (List.range n).length, f ((List.range n).getD i 0) :=
        (sum_getD_map (List.range n) f).symm
    _ = ∑ i ∈ Finset.range n, f i := by
        rw [List.length_range]
        refine Finset.sum_congr rfl (fun i hi => ?_)
        rw [List.getD_eq_getElem _ _ (by simpa using Finset.mem_range.mp hi)]
        rw [List.getElem_range]

theorem reflect_perm (n : ℕ) (b : List ℕ) (hb : b.Perm (List.range n)) :
    (b.map (fun x => n - 1 - x)).Perm (List.range n) := by
  refine (hb.map _).trans ?_
  apply perm_range_of_nodup
  · simp
  · apply List.Nodup.map_on _ (List.nodup_range n)
    intro a ha c hc hac
    rw [List.mem_range] at ha hc
    omega
  · intro x hx
    rw [List.mem_map] at hx
    obtain ⟨j, hj, rfl⟩ := hx
    rw [List.mem_range] at hj
    omega

theorem getD_reflect (n : ℕ) (b : List ℕ) (hb : b.Perm (List.range n)) (i : ℕ)
    (hi : i < n) :
    ((b.map (fun x => n - 1 - x)).getD i 0 : ℚ) = (n : ℚ) - 1 - (b.getD i 0 : ℚ) := by
  have hlen : b.length = n := by simpa using hb.length_eq
  have hib : i < b.length := by omega
  have hval : b.get ⟨i, hib⟩ < n :=
    List.mem_range.mp (hb.mem_iff.mp (List.get_mem b i hib))
  rw [List.getD_eq_getElem _ _ (by simpa using hib), List.getElem_map,
    List.getD_eq_getElem _ _ hib]
  have h1 : b.get ⟨i, hib⟩ ≤ n - 1 := by omega
  have h2 : 1 ≤ n := by omega
  rw [List.get_eq_getElem] at hval h1
  rw [Nat.cast_sub h1, Nat.cast_sub h2]
  push_cast
  ring

theorem mul_sum_le_sum_sq (n : ℕ) (a b : List ℕ)
    (ha : a.Perm (List.range n)) (hb : b.Perm (List.range n)) :
    ∑ i ∈ Finset.range n, (a.getD i 0 : ℚ) * (b.getD i 0 : ℚ) ≤
      ∑ i ∈ Finset.range n, (i : ℚ) ^ 2 := by
  have hA2 : ∑ i ∈ Finset.range n, ((a.getD i 0 : ℚ)) ^ 2 =
      ∑ i ∈ Finset.range n, (i : ℚ) ^ 2 :=
    perm_range_sum n a ha (fun x => (x : ℚ) ^ 2)
  have hB2 : ∑ i ∈ Finset.range n, ((b.getD i 0 : ℚ)) ^ 2 =
      ∑ i ∈ Finset.range n, (i : ℚ) ^ 2 :=
    perm_range_sum n b hb (fun x => (x : ℚ) ^ 2)
  have hcs := Finset.sum_mul_sq_le_sq_mul_sq (Finset.range n)
    (fun i => (a.getD i 0 : ℚ)) (fun i => (b.getD i 0 : ℚ))
  simp only [] at hcs
  rw [hA2, hB2] at hcs
  have hx : 0 ≤ ∑ i ∈ Finset.range n, (a.getD i 0 : ℚ) * (b.getD i 0 : ℚ) :=
    Finset.sum_nonneg fun i _ => mul_nonneg (Nat.cast_nonneg _) (Nat.cast_nonneg _)
  have hT : 0 ≤ ∑ i ∈ Finset.range n, (i : ℚ) ^ 2 :=
    Finset.sum_nonneg fun i _ => sq_nonneg _
  nlinarith [hcs, hx, hT]

theorem sum_mul_ge (n : ℕ) (a b : List ℕ)
    (ha : a.Perm (List.range n)) (hb : b.Perm (List.range n)) :
    ((n : ℚ) - 1) * (∑ i ∈ Finset.range n, (i : ℚ)) -
        ∑ i ∈ Finset.range n, (i : ℚ) ^ 2 ≤
      ∑ i ∈ Finset.range n, (a.getD i 0 : ℚ) * (b.getD i 0 : ℚ) := by
  have hmain := mul_sum_le_sum_sq n a (b.map (fun x => n - 1 - x)) ha (reflect_perm n b hb)
  have hre : ∑ i ∈ Finset.range n,
      (a.getD i 0 : ℚ) * ((b.map (fun x => n - 1 - x)).getD i 0 : ℚ) =
      ((n : ℚ) - 1) * (∑ i ∈ Finset.range n, (a.getD i 0 : ℚ)) -
        ∑ i ∈ Finset.range n, (a.getD i 0 : ℚ) * (b.getD i 0 : ℚ) := by
    rw [Finset.mul_sum, ← Finset.sum_sub_distrib]
    refine Finset.sum_congr rfl (fun i hi => ?_)
    rw [getD_reflect n b hb i (Finset.mem_range.mp hi)]
    ring
  rw [hre] at hmain
  have hsA : ∑ i ∈ Finset.range n, (a.getD i 0 : ℚ) = ∑ i ∈ Finset.range n, (i : ℚ) :=
    perm_range_sum n a ha (fun x => (x : ℚ))
  rw [hsA] at hmain
  linarith

theorem sq_diff_sum_le (n : ℕ) (a b : List ℕ)
    (ha : a.Perm (List.range n)) (hb : b.Perm (List.range n)) :
    ∑ i ∈ Finset.range n, ((a.getD i 0 : ℚ) - (b.getD i 0 : ℚ)) ^ 2 ≤
      (n : ℚ) * ((n : ℚ) ^ 2 - 1) / 3 := by
  have hA2 : ∑ i ∈ Finset.range n, ((a.getD i 0 : ℚ)) ^ 2 =
      ∑ i ∈ Finset.range n, (i : ℚ) ^ 2 :=
    perm_range_sum n a ha (fun x => (x : ℚ) ^ 2)
  have hB2 : ∑ i ∈ Finset.range n, ((b.getD i 0 : ℚ)) ^ 2 =
      ∑ i ∈ Finset.range n, (i : ℚ) ^ 2 :=
    perm_range_sum n b hb (fun x => (x : ℚ) ^ 2)
  have hexp : ∑ i ∈ Finset.range n, ((a.getD i 0 : ℚ) - (b.getD i 0 : ℚ)) ^ 2 =
      (∑ i ∈ Finset.range n, ((a.getD i 0 : ℚ)) ^ 2) +
        (∑ i ∈ Finset.range n, ((b.getD i 0 : ℚ)) ^ 2) -
        2 * ∑ i ∈ Finset.range n, (a.getD i 0 : ℚ) * (b.getD i 0 : ℚ) := by
    rw [← Finset.sum_add_distrib, Finset.mul_sum, ← Finset.sum_sub_distrib]
    exact Finset.sum_congr rfl (fun i _ => by ring)
  have hmul := sum_mul_ge n a b ha hb
  rw [hexp, hA2, hB2, sum_range_sq_q]
  rw [sum_range_id_q, sum_range_sq_q] at hmul
  linarith

theorem rho_bounds (n : ℕ) (hn : 2 ≤ n) (a b : List ℕ)
    (ha : a.Perm (List.range n)) (hb : b.Perm (List.range n)) :
    -1 ≤ 1 - rho_mult n *
        ∑ i ∈ Finset.range n, ((a.getD i 0 : ℚ) - (b.getD i 0 : ℚ)) ^ 2 ∧
      1 - rho_mult n *
        ∑ i ∈ Finset.range n, ((a.getD i 0 : ℚ) - (b.getD i 0 : ℚ)) ^ 2 ≤ 1 := by
  have hS0 : 0 ≤ ∑ i ∈ Finset.range n, ((a.getD i 0 : ℚ) - (b.getD i 0 : ℚ)) ^ 2 :=
    Finset.sum_nonneg fun i _ => sq_nonneg _
  have hSle := sq_diff_sum_le n a b ha hb
  have hnQ : (2 : ℚ) ≤ (n : ℚ) := by exact_mod_cast hn
  have hD : (0 : ℚ) < (n : ℚ) * ((n : ℚ) * (n : ℚ) - 1) := by nlinarith
  have hmultpos : 0 ≤ rho_mult n := by
    unfold rho_mult
    exact div_nonneg (by norm_num) (le_of_lt hD)
  constructor
  · have h2 : rho_mult n *
        (∑ i ∈ Finset.range n, ((a.getD i 0 : ℚ) - (b.getD i 0 : ℚ)) ^ 2) ≤
        rho_mult n * ((n : ℚ) * ((n : ℚ) ^ 2 - 1) / 3) :=
      mul_le_mul_of_nonneg_left hSle hmultpos
    have h3 : rho_mult n * ((n : ℚ) * ((n : ℚ) ^ 2 - 1) / 3) = 2 := by
      have hne : (n : ℚ) * ((n : ℚ) * (n : ℚ) - 1) ≠ 0 := ne_of_gt hD
      unfold rho_mult
      field_simp
      ring
    linarith
  · have := mul_nonneg hmultpos hS0
    linarith

/-- C4: every rho value emitted by either sampler lies in `[-1, 1]` (arithmetic
modelled exactly; the sum of squared rank differences of two permutations of
`0..N-1` is at most `N(N²-1)/3`, and the scaling constant is `6/(N(N²-1))`).
For the unconstrained sampler this holds for every `N > 1` whenever the shuffle
produces a permutation, as `std::shuffle` does; for the design-adjusted sampler it
holds for every `Nobs > 1` unconditionally, the rank vectors being permutations by
construction. -/
theorem C4_rho_in_unit_interval :
    (∀ (shuffle : ℤ → List ℕ → List ℕ) (N K : ℤ) (seeds : List ℤ) (out : List ℚ),
      1 < N →
      (∀ s, (shuffle s (List.range N.toNat)).Perm (List.range N.toNat)) →
      get_null_rho shuffle N K seeds = Except.ok out →
      ∀ x ∈ out, -1 ≤ x ∧ x ≤ 1) ∧
    (∀ (applyQ : List ℚ → List ℚ) (normals : ℤ → ℕ → ℚ) (Nobs Ncoef : ℕ)
      (K : ℤ) (seeds : List ℤ) (out : List ℚ),
      1 < Nobs →
      get_null_rho_design applyQ normals Nobs Ncoef K seeds = Except.ok out →
      ∀ x ∈ out, -1 ≤ x ∧ x ≤ 1) := by
  constructor
  · intro shuffle N K seeds out hN hperm hok x hx
    unfold get_null_rho at hok
    split_ifs at hok with h1 h2 h3
    · rw [Except.ok.injEq] at hok
      subst hok
      rw [List.mem_map] at hx
      obtain ⟨s, hs, rfl⟩ := hx
      have hb := rho_bounds N.toNat (by omega) (shuffle s (List.range N.toNat))
        (List.range N.toNat) (hperm s) (List.Perm.refl _)
      have hsum : ∑ i ∈ Finset.range N.toNat,
          (((shuffle s (List.range N.toNat)).getD i 0 : ℚ) -
            (((List.range N.toNat).getD i 0 : ℚ))) ^ 2 =
          ∑ i ∈ Finset.range N.toNat,
          (((shuffle s (List.range N.toNat)).getD i 0 : ℚ) - (i : ℚ)) ^ 2 := by
        refine Finset.sum_congr rfl (fun i hi => ?_)
        have hi' : i < (List.range N.toNat).length := by
          simpa using Finset.mem_range.mp hi
        rw [List.getD_eq_getElem (List.range N.toNat) 0 hi', List.getElem_range]
      rw [hsum] at hb
      simp only [null_rho_iter]
      exact hb
  · intro applyQ normals Nobs Ncoef K seeds out hNobs hok x hx
    unfold get_null_rho_design at hok
    split_ifs at hok with h1 h2
    · rw [Except.ok.injEq] at hok
      subst hok
      rw [List.mem_map] at hx
      obtain ⟨s, hs, rfl⟩ := hx
      simp only [design_iter]
      exact rho_bounds Nobs (by omega) _ _ (rankVec_perm _ _) (rankVec_perm _ _)

/-- Witness for C4: a concrete unconstrained run (identity shuffle, `N = 2`, one
seed) emits the value `1`, which lies in `[-1, 1]`. -/
theorem C4_rho_in_unit_interval_witness : -1 ≤ (1 : ℚ) ∧ (1 : ℚ) ≤ 1 :=
  C4_rho_in_unit_interval.1 (fun _ l => l) 2 1 [0] [1] (by norm_num)
    (fun _ => List.Perm.refl _)
    (by
      have ht : (2 : ℤ).toNat = 2 := rfl
      unfold get_null_rho null_rho_iter
      rw [ht]
      norm_num [Finset.sum_range_succ, List.getElem?_range, rho_mult])
    1 (List.mem_singleton.mpr rfl)

/-- C1: each design-adjusted iteration seeds one generator from its seed, and twice
(mode 0, then mode 1 with the subsequent `Nobs - Ncoef` draws of the same generator)
zeroes the working vector's first `Ncoef` entries, fills the remaining entries with
standard-normal deviates, applies the orthogonal transform, and ranks the result so
that `rank[i]` is the sorted position of item `i` (ties broken by original index);
the iteration's output is `1 - 6/(Nobs(Nobs²-1)) · Σ (rank_mode1[i] - rank_mode0[i])²`
(equal to the claim's squared difference, which is symmetric in the two modes). -/
theorem C1_design_iteration_formula :
    ∀ (applyQ : List ℚ → List ℚ) (normals : ℤ → ℕ → ℚ) (Nobs Ncoef : ℕ)
      (K : ℤ) (seeds : List ℤ), 0 < K → (seeds.length : ℤ) = K →
      ∃ out, get_null_rho_design applyQ normals Nobs Ncoef K seeds = Except.ok out ∧
        (out.length : ℤ) = K ∧
        ∀ it (h : it < out.length) (h' : it < seeds.length),
          out.get ⟨it, h⟩ =
            1 - 6 / ((Nobs : ℚ) * ((Nobs : ℚ) ^ 2 - 1)) *
              ∑ i ∈ Finset.range Nobs,
                ((sposition Nobs (applyQ (List.replicate Ncoef 0 ++
                    (List.range (Nobs - Ncoef)).map
                      (fun k => normals (seeds.get ⟨it, h'⟩) ((Nobs - Ncoef) + k)))) i : ℚ) -
                  (sposition Nobs (applyQ (List.replicate Ncoef 0 ++
                    (List.range (Nobs - Ncoef)).map
                      (fun k => normals (seeds.get ⟨it, h'⟩) k))) i : ℚ)) ^ 2 := by
  intro applyQ normals Nobs Ncoef K seeds hK hlen
  refine ⟨seeds.map (fun s => design_iter applyQ (normals s) Nobs Ncoef), ?_, ?_, ?_⟩
  · unfold get_null_rho_design
    rw [if_neg (by omega), if_neg (by omega)]
  · simpa using hlen
  · intro it h h'
    simp only [List.get_eq_getElem, List.getElem_map, design_iter]
    have hdraw0 : drawVec (normals (seeds.get ⟨it, h'⟩)) Nobs Ncoef 0 =
        List.replicate Ncoef 0 ++
          (List.range (Nobs - Ncoef)).map (fun k => normals (seeds.get ⟨it, h'⟩) k) := by
      unfold drawVec
      simp
    have hdraw1 : drawVec (normals (seeds.get ⟨it, h'⟩)) Nobs Ncoef (Nobs - Ncoef) =
        List.replicate Ncoef 0 ++
          (List.range (Nobs - Ncoef)).map
            (fun k => normals (seeds.get ⟨it, h'⟩) ((Nobs - Ncoef) + k)) := rfl
    have hmult : rho_mult ((Nobs : ℚ)) = 6 / ((Nobs : ℚ) * ((Nobs : ℚ) ^ 2 - 1)) := by
      unfold rho_mult
      rw [pow_two]
    have hsum : ∀ v1 v2 : List ℚ,
        (∑ row ∈ Finset.range Nobs,
          (((rankVec Nobs v1).getD row 0 : ℚ) - ((rankVec Nobs v2).getD row 0 : ℚ)) ^ 2) =
        ∑ row ∈ Finset.range Nobs,
          ((sposition Nobs v1 row : ℚ) - (sposition Nobs v2 row : ℚ)) ^ 2 := by
      intro v1 v2
      refine Finset.sum_congr rfl (fun i hi => ?_)
      rw [rankVec_getD_eq_sposition Nobs v1 i (Finset.mem_range.mp hi),
        rankVec_getD_eq_sposition Nobs v2 i (Finset.mem_range.mp hi)]
    rw [List.get_eq_getElem] at hdraw0 hdraw1
    rw [hdraw0, hdraw1, hsum, hmult]

/-- Witness for C1: a concrete design-adjusted call returns normally. -/
theorem C1_design_iteration_formula_witness :
    ∃ out, get_null_rho_design (fun v => v) (fun _ _ => 0) 3 1 1 [5] = Except.ok out :=
  (C1_design_iteration_formula (fun v => v) (fun _ _ => 0) 3 1 1 [5] (by norm_num)
    (by simp)).elim (fun out hout => ⟨out, hout.1⟩)

/-- C2: the claim that both samplers return an empty sequence at `K = 0` fails on the
code: the design-adjusted sampler's check `Niters <= 0` rejects `K = 0` with an
invalid-argument error. -/
theorem C2_counterexample :
    get_null_rho_design (fun v => v) (fun _ _ => 0) 3 1 0 [] =
      Except.error "number of iterations should be positive" := rfl

/-- C2 (amended): with `K = 0` and an empty seed sequence, the unconstrained sampler
returns an empty output sequence for every valid `N`, while the design-adjusted
sampler raises an invalid-argument error because its check requires `K > 0`. -/
theorem C2_empty_iterations :
    ∀ (shuffle : ℤ → List ℕ → List ℕ) (N : ℤ), 1 < N →
      get_null_rho shuffle N 0 [] = Except.ok [] ∧
      ∀ (applyQ : List ℚ → List ℚ) (normals : ℤ → ℕ → ℚ) (Nobs Ncoef : ℕ),
        get_null_rho_design applyQ normals Nobs Ncoef 0 [] =
          Except.error "number of iterations should be positive" := by
  intro shuffle N hN
  refine ⟨?_, fun _ _ _ _ => rfl⟩
  unfold get_null_rho
  rw [if_neg (by omega), if_neg (by omega), if_neg (by simp)]
  rfl

/-- Witness for C2: concrete instantiation at `N = 2`. -/
theorem C2_empty_iterations_witness :
    get_null_rho (fun _ l => l) 2 0 [] = Except.ok [] :=
  (C2_empty_iterations (fun _ l => l) 2 (by norm_num)).1

/-- C5: the unconstrained sampler raises an error iff `N ≤ 1`, `K < 0`, or the seed
count differs from `K`; on all other inputs it returns normally. -/
theorem C5_error_iff :
    ∀ (shuffle : ℤ → List ℕ → List ℕ) (N K : ℤ) (seeds : List ℤ),
      ((∃ e, get_null_rho shuffle N K seeds = Except.error e) ↔
        (N ≤ 1 ∨ K < 0 ∨ (seeds.length : ℤ) ≠ K)) ∧
      ((∃ out, get_null_rho shuffle N K seeds = Except.ok out) ↔
        ¬(N ≤ 1 ∨ K < 0 ∨ (seeds.length : ℤ) ≠ K)) := by
  intro shuffle N K seeds
  unfold get_null_rho
  split_ifs with h1 h2 h3
  · refine ⟨⟨fun _ => Or.inl h1, fun _ => ⟨_, rfl⟩⟩, ⟨?_, fun hc => absurd (Or.inl h1) hc⟩⟩
    rintro ⟨out, hout⟩
    cases hout
  · refine ⟨⟨fun _ => Or.inr (Or.inl h2), fun _ => ⟨_, rfl⟩⟩,
      ⟨?_, fun hc => absurd (Or.inr (Or.inl h2)) hc⟩⟩
    rintro ⟨out, hout⟩
    cases hout
  · refine ⟨⟨fun _ => Or.inr (Or.inr h3), fun _ => ⟨_, rfl⟩⟩,
      ⟨?_, fun hc => absurd (Or.inr (Or.inr h3)) hc⟩⟩
    rintro ⟨out, hout⟩
    cases hout
  · refine ⟨⟨?_, fun hc => absurd hc (by tauto)⟩, ⟨fun _ => by tauto, fun _ => ⟨_, rfl⟩⟩⟩
    rintro ⟨e, he⟩
    cases he

/-- C10: the unconstrained sampler accepts `N = 2` (its check is `N ≤ 1`), even though
the error message text reads "greater than 2"; the accepting condition on `N` is
exactly `N ≥ 2`. -/
theorem C10_boundary_two :
    ∀ (shuffle : ℤ → List ℕ → List ℕ) (K : ℤ) (seeds : List ℤ),
      0 ≤ K → (seeds.length : ℤ) = K →
      (∃ out, get_null_rho shuffle 2 K seeds = Except.ok out) ∧
      (∀ N : ℤ, N ≤ 1 →
        get_null_rho shuffle N K seeds =
          Except.error "number of cells should be greater than 2") ∧
      (∀ N : ℤ, 1 < N → ∃ out, get_null_rho shuffle N K seeds = Except.ok out) := by
  intro shuffle K seeds hK hlen
  have accept : ∀ N : ℤ, 1 < N → ∃ out, get_null_rho shuffle N K seeds = Except.ok out := by
    intro N hN
    unfold get_null_rho
    rw [if_neg (by omega), if_neg (by omega), if_neg (by omega)]
    exact ⟨_, rfl⟩
  refine ⟨accept 2 (by norm_num), fun N hN => ?_, accept⟩
  unfold get_null_rho
  rw [if_pos hN]

/-- Witness for C10: concrete instantiation at `K = 0`, no seeds. -/
theorem C10_boundary_two_witness :
    ∃ out, get_null_rho (fun _ l => l) 2 0 [] = Except.ok out :=
  (C10_boundary_two (fun _ l => l) 0 [] (by norm_num) (by simp)).1

/-- C7: an unconstrained-sampler iteration whose shuffle produces the reversed ranking
`[3,2,1,0]` at `N = 4` yields exactly `rho = 1 - (6/(4*15))*(9+1+1+9) = -1`. -/
theorem C7_reversed_is_minus_one (shuffle : ℤ → List ℕ → List ℕ) (seed : ℤ)
    (h : shuffle seed (List.range 4) = [3, 2, 1, 0]) :
    null_rho_iter shuffle 4 seed = -1 := by
  unfold null_rho_iter
  rw [h]
  norm_num [Finset.sum_range_succ, rho_mult, List.getD]

/-- Witness for C7: the reversing shuffle at seed 0. -/
theorem C7_reversed_is_minus_one_witness :
    null_rho_iter (fun _ l => l.reverse) 4 0 = -1 :=
  C7_reversed_is_minus_one (fun _ l => l.reverse) 0 (by rfl)

/-- C6: both samplers and the RNG diagnostic are deterministic: two calls with
identical arguments (the randomness layer being a deterministic function of the
seed, as `std::mt19937` is) produce identical output sequences. -/
theorem C6_deterministic :
    ∀ (shuffle : ℤ → List ℕ → List ℕ) (applyQ : List ℚ → List ℚ)
      (normals : ℤ → ℕ → ℚ) (N K N' K' : ℤ) (seeds seeds' : List ℤ)
      (Nobs Ncoef Nobs' Ncoef' : ℕ) (n n' : ℕ) (s s' : ℤ),
      N = N' → K = K' → seeds = seeds' → Nobs = Nobs' → Ncoef = Ncoef' →
      n = n' → s = s' →
      get_null_rho shuffle N K seeds = get_null_rho shuffle N' K' seeds' ∧
      get_null_rho_design applyQ normals Nobs Ncoef K seeds =
        get_null_rho_design applyQ normals Nobs' Ncoef' K' seeds' ∧
      test_rnorm normals n s = test_rnorm normals n' s' := by
  intros shuffle applyQ normals N K N' K' seeds seeds' Nobs Ncoef Nobs' Ncoef' n n' s s'
    h1 h2 h3 h4 h5 h6 h7
  subst h1; subst h2; subst h3; subst h4; subst h5; subst h6; subst h7
  exact ⟨rfl, rfl, rfl⟩

/-- Witness for C6: identical concrete calls agree. -/
theorem C6_deterministic_witness :
    get_null_rho (fun _ l => l) 2 0 [] = get_null_rho (fun _ l => l) 2 0 [] ∧
      get_null_rho_design (fun v => v) (fun _ _ => 0) 3 1 0 [] =
        get_null_rho_design (fun v => v) (fun _ _ => 0) 3 1 0 [] ∧
      test_rnorm (fun _ _ => 0) 5 42 = test_rnorm (fun _ _ => 0) 5 42 :=
  C6_deterministic (fun _ l => l) (fun v => v) (fun _ _ => 0) 2 0 2 0 [] [] 3 1 3 1 5 5 42 42
    rfl rfl rfl rfl rfl rfl rfl

/-- C8: invalid arguments are detected before any simulation work: the resulting
error does not depend on the shuffle / normal-draw / transform functions, and the
whole call aborts with an error value carrying no partial output. -/
theorem C8_eager_abort :
    (∀ (N K : ℤ) (seeds : List ℤ), (N ≤ 1 ∨ K < 0 ∨ (seeds.length : ℤ) ≠ K) →
      ∃ e, ∀ shuffle : ℤ → List ℕ → List ℕ,
        get_null_rho shuffle N K seeds = Except.error e) ∧
    (∀ (Nobs Ncoef : ℕ) (K : ℤ) (seeds : List ℤ), (K ≤ 0 ∨ (seeds.length : ℤ) ≠ K) →
      ∃ e, ∀ (applyQ : List ℚ → List ℚ) (normals : ℤ → ℕ → ℚ),
        get_null_rho_design applyQ normals Nobs Ncoef K seeds = Except.error e) := by
  constructor
  · intro N K seeds h
    by_cases h1 : N ≤ 1
    · exact ⟨"number of cells should be greater than 2", fun shuffle => by
        unfold get_null_rho; rw [if_pos h1]⟩
    · by_cases h2 : K < 0
      · exact ⟨"number of iterations should be non-negative", fun shuffle => by
          unfold get_null_rho; rw [if_neg h1, if_pos h2]⟩
      · have h3 : (seeds.length : ℤ) ≠ K := by tauto
        exact ⟨"number of iterations and seeds should be the same", fun shuffle => by
          unfold get_null_rho; rw [if_neg h1, if_neg h2, if_pos h3]⟩
  · intro Nobs Ncoef K seeds h
    by_cases h1 : K ≤ 0
    · exact ⟨"number of iterations should be positive", fun applyQ normals => by
        unfold get_null_rho_design; rw [if_pos h1]⟩
    · have h2 : (seeds.length : ℤ) ≠ K := by tauto
      exact ⟨"number of iterations and seeds should be the same", fun applyQ normals => by
        unfold get_null_rho_design; rw [if_neg h1, if_pos h2]⟩

/-- C3: for every `N > 1`, `K ≥ 0` and seed sequence of length `K`, the unconstrained
sampler returns exactly `K` values, the `it`-th being
`1 - 6/(N(N²-1)) · Σ_{i<N} (permuted[i] - i)²` where `permuted` is the shuffle of the
identity sequence `0..N-1` driven by the generator seeded from the `it`-th seed. -/
theorem C3_unconstrained_formula :
    ∀ (shuffle : ℤ → List ℕ → List ℕ) (N K : ℤ) (seeds : List ℤ),
      1 < N → 0 ≤ K → (seeds.length : ℤ) = K →
      ∃ out, get_null_rho shuffle N K seeds = Except.ok out ∧
        (out.length : ℤ) = K ∧
        ∀ it (h : it < out.length) (h' : it < seeds.length),
          out.get ⟨it, h⟩ =
            1 - 6 / ((N : ℚ) * ((N : ℚ) ^ 2 - 1)) *
              ∑ i ∈ Finset.range N.toNat,
                (((shuffle (seeds.get ⟨it, h'⟩) (List.range N.toNat)).getD i 0 : ℚ) -
                  (i : ℚ)) ^ 2 := by
  intro shuffle N K seeds hN hK hlen
  refine ⟨seeds.map (fun s => null_rho_iter shuffle N.toNat s), ?_, ?_, ?_⟩
  · unfold get_null_rho
    rw [if_neg (by omega), if_neg (by omega), if_neg (by omega)]
  · simpa using hlen
  · intro it h h'
    have hNQ : ((N.toNat : ℚ)) = (N : ℚ) := by
      exact_mod_cast congrArg (fun z : ℤ => (z : ℚ)) (Int.toNat_of_nonneg (by omega))
    have hmult : rho_mult ((N.toNat : ℚ)) = 6 / ((N : ℚ) * ((N : ℚ) ^ 2 - 1)) := by
      unfold rho_mult
      rw [hNQ, pow_two]
    simp only [List.get_eq_getElem, List.getElem_map, null_rho_iter]
    exact congrArg
      (fun m => 1 - m * (∑ cell ∈ Finset.range N.toNat,
        (((shuffle (seeds.get ⟨it, h'⟩) (List.range N.toNat)).getD cell 0 : ℚ) -
          (cell : ℚ)) ^ 2)) hmult

/-- Witness for C3: concrete instantiation with the reversing shuffle, `N = 2`,
one seed. -/
theorem C3_unconstrained_formula_witness :
    ∃ out, get_null_rho (fun _ l => l.reverse) 2 1 [7] = Except.ok out :=
  (C3_unconstrained_formula (fun _ l => l.reverse) 2 1 [7] (by norm_num) (by norm_num)
    (by simp)).elim (fun out hout => ⟨out, hout.1⟩)

/-- Witness for C8: the error at `N = 0` is independent of the shuffle layer. -/
theorem C8_eager_abort_witness :
    ∃ e, get_null_rho (fun _ l => l) 0 0 [] = Except.error e :=
  (C8_eager_abort.1 0 0 [] (Or.inl (by norm_num))).elim
    (fun e he => ⟨e, he (fun _ l => l)⟩)

end ScranRhoNull
